import Mathlib

/-!
Verification of the plugin-api event bridge.

Shallow embedding of the two core source files:

* `src/unnamed/part_000` — the `Listeners` registry (add / remove /
  removeByCallback / removeAll / notify).
* `src/js/AH5Communicator.js` — the `registerMenuActionGroup` protocol.

JavaScript values that cross the bridge are modelled by the inductive
`Value`.  The listeners container is an Array used as a string-keyed
dictionary in the source; it is modelled as an association list (inherited
Array.prototype properties such as a key named length are not modelled).
Callbacks stored in the registry are modelled syntactically by `Cb`
(a reference identity, a list of reentrant registry operations performed
when invoked, and a fixed return value) so that notification passes can be
interpreted, traced and reasoned about.
-/

/-- Model of a JavaScript value as it appears on the bridge: undefined,
null, booleans, numbers, strings, arrays, plain objects, and function
references (identified by a numeric reference id, since the bridge only
ever compares functions by reference identity). -/
inductive Value : Type where
  | undefined : Value
  | null : Value
  | bool : Bool → Value
  | num : Int → Value
  | str : String → Value
  | arr : List Value → Value
  | obj : List (String × Value) → Value
  | func : Nat → Value

/-- Field lookup in an object literal: the first binding of the key wins,
a missing key reads as undefined. -/
def lookupField : List (String × Value) → String → Value
  | [], _ => Value.undefined
  | (k, v) :: rest, key => if k = key then v else lookupField rest key

/-- JavaScript property read `v.key` for the values the bridge handles:
object fields are looked up, the length of an array is its element count,
and property access on anything else yields undefined (every such access
in the source is guarded so null and undefined are never dereferenced). -/
def Value.getField : Value → String → Value
  | .obj fs, key => lookupField fs key
  | .arr l, key => if key = "length" then .num l.length else .undefined
  | _, _ => .undefined

/-- JavaScript truthiness: undefined, null, false, 0 and the empty string
are falsy; every object, array and function is truthy. -/
def Value.truthy : Value → Bool
  | .undefined => false
  | .null => false
  | .bool b => b
  | .num n => n != 0
  | .str s => decide (s ≠ "")
  | .arr _ => true
  | .obj _ => true
  | .func _ => true

/-- Strict equality test against the literal `true`, as in the source
check `data.params === true`. -/
def Value.isTrue : Value → Bool
  | .bool true => true
  | _ => false

/-- Strict equality test against the literal `false`, as in the source
check on a callback result `r === false`. -/
def Value.isFalse : Value → Bool
  | .bool false => true
  | _ => false

/-- One slot of the listener sequence of one event type: either a stored
callback or the literal false written by remove (a tombstone). `α` is the
type used to model the stored callback. -/
inductive Slot (α : Type) : Type where
  | cb : α → Slot α
  | tomb : Slot α
deriving Repr, DecidableEq

/-- The listener registry of part_000: `this._listeners`, a string-keyed
dictionary from event type to the ordered sequence of slots. -/
structure Listeners (α : Type) : Type where
  _listeners : List (String × List (Slot α))
deriving Repr, DecidableEq

/-- Read of a string-keyed dictionary modelled as an association list:
none models undefined. -/
def assocGet : List (String × β) → String → Option β
  | [], _ => none
  | (k, v) :: rest, key => if k = key then some v else assocGet rest key

/-- Write of a string-keyed dictionary modelled as an association list:
replaces the binding if the key is present, otherwise appends it. -/
def assocSet : List (String × β) → String → β → List (String × β)
  | [], key, val => [(key, val)]
  | (k, v) :: rest, key, val =>
      if k = key then (key, val) :: rest else (k, v) :: assocSet rest key val

/-- Dictionary read `this._listeners[event]`. -/
def getSeq (l : Listeners α) (event : String) : Option (List (Slot α)) :=
  assocGet l._listeners event

/-- Dictionary write `this._listeners[event] = seq`. -/
def setSeq (l : Listeners α) (event : String) (seq : List (Slot α)) :
    Listeners α :=
  ⟨assocSet l._listeners event seq⟩

/-- Listeners.prototype.add (part_000 lines 84-93): create the sequence if
it is undefined, store the callback at index length (an append), and
return that index. -/
def Listeners.add (l : Listeners α) (event : String) (callback : α) :
    Listeners α × Nat :=
  let seq := (getSeq l event).getD []
  let index := seq.length
  (setSeq l event (seq ++ [Slot.cb callback]), index)

/-- Listeners.prototype.remove (part_000 lines 101-111): a no-op when the
event type or the slot is undefined (a slot inside the sequence is a
function or the literal false, never undefined), otherwise the slot is
overwritten with the literal false — a tombstone, so sibling indexes are
retained. -/
def Listeners.remove (l : Listeners α) (event : String) (index : Nat) :
    Listeners α :=
  match getSeq l event with
  | none => l
  | some seq =>
      if index < seq.length then setSeq l event (seq.set index Slot.tomb) else l

/-- Listeners.prototype.removeAll (part_000 lines 137-143): the argument is
a string or absent; `if (!event)` is taken for an absent argument and for
the empty string (the only falsy string), and then the whole dictionary is
replaced; otherwise only the sequence of the named event is replaced. -/
def Listeners.removeAll (l : Listeners α) (event : Option String) :
    Listeners α :=
  match event with
  | none => ⟨[]⟩
  | some s => if s = "" then ⟨[]⟩ else setSeq l s []

/-- The callbacks that a notification pass would deliver to, in slot
order: the stored callbacks of the non-tombstone slots. -/
def activeCbs : List (Slot α) → List α
  | [] => []
  | Slot.cb c :: rest => c :: activeCbs rest
  | Slot.tomb :: rest => activeCbs rest

mutual
/-- Syntactic model of a callback stored in the registry: a numeric
reference identity (the source compares callbacks only with `===`, which
is reference identity on functions), a list of registry operations the
callback performs when invoked (so reentrant mutation during a
notification pass can be expressed), and the value it returns. -/
inductive Cb : Type where
  | mk : Nat → List CbOp → Value → Cb

/-- A registry operation a callback may perform when invoked: add a
callback under an event type, or remove the slot at an index of an event
type.  These are the in-place mutations reentrancy is about. -/
inductive CbOp : Type where
  | add : String → Cb → CbOp
  | rem : String → Nat → CbOp
end

/-- Reference identity of a callback. -/
def Cb.cid : Cb → Nat
  | .mk i _ _ => i

/-- The registry operations a callback performs when invoked. -/
def Cb.ops : Cb → List CbOp
  | .mk _ o _ => o

/-- The value a callback returns when invoked. -/
def Cb.retVal : Cb → Value
  | .mk _ _ r => r

/-- Run the registry operations of an invoked callback, in order, on the
registry state (the index returned by add is discarded, as a source
callback would discard it unless it stores it elsewhere). -/
def runOps : Listeners Cb → List CbOp → Listeners Cb
  | st, [] => st
  | st, CbOp.add e c :: rest => runOps (Listeners.add st e c).1 rest
  | st, CbOp.rem e i :: rest => runOps (Listeners.remove st e i) rest

/-- Listeners.prototype.removeByCallback as written (part_000 lines
120-130): jQuery.each iterates the sequence; inside the each callback
`this` is bound by jQuery to the current element, so on the first slot
whose stored callback is reference-identical to the argument the
expression `this.remove` reads a nonexistent property of that function and
the call raises a TypeError — modelled as none.  No registry mutation ever
happens.  When no slot matches, the each callback never fires its branch
(and its `return true` would only continue the iteration anyway) and the
function falls through to `return false`.  When the sequence is undefined
the behaviour depends on the jQuery version (modern versions iterate
nothing); the theorems below only concern defined sequences. -/
def Listeners.removeByCallback (l : Listeners Cb) (event : String)
    (callback : Cb) : Option Bool :=
  match getSeq l event with
  | none => some false
  | some seq =>
      if seq.any (fun s => match s with
          | Slot.cb c => c.cid == callback.cid
          | Slot.tomb => false)
      then none
      else some false

/-- One recorded invocation during a notification pass: the reference
identity of the invoked callback, the arguments it received, and the value
it returned.  The trace is instrumentation of the embedding, not state of
the source program. -/
structure InvRecord : Type where
  cbId : Nat
  args : List Value
  ret : Value

/-- The invocation mode notify selects from the shape of the data
argument: apply with the argArray read from data.data, or a plain call
with data as the single argument. -/
inductive ArgMode : Type where
  | positional : Value → ArgMode
  | single : Value → ArgMode

/-- Argument extraction of Function.prototype.apply for the argArray
values the bridge handles: undefined and null yield no arguments, an array
yields its elements, and anything else is modelled as the TypeError that
apply raises on a primitive argArray (none). -/
def argList : Value → Option (List Value)
  | .undefined => some []
  | .null => some []
  | .arr l => some l
  | _ => none

/-- The arguments one invocation receives under a mode, none when apply
would raise. -/
def ArgMode.resolve : ArgMode → Option (List Value)
  | .positional aa => argList aa
  | .single d => some [d]

/-- The mode check of notify (part_000 line 156): positional exactly when
`data && data.params && data.params === true`, in which case the argArray
is data.data; otherwise the callback receives data itself. -/
def notifyMode (data : Value) : ArgMode :=
  if data.truthy && (data.getField "params").truthy
      && (data.getField "params").isTrue then
    ArgMode.positional (data.getField "data")
  else
    ArgMode.single data

/-- The jQuery.each loop inside notify (part_000 lines 154-166): the
length is captured once when the loop starts — the first argument is the
number of iterations left, so the captured length is the initial counter
plus the starting index and the loop stops at that length.  Each iteration
re-reads the current element at index i from the live sequence (in-place
adds and removes by reentrant callbacks are visible, but slots past the
captured length are never visited), skips anything that is not a function
(tombstones), and otherwise resolves the arguments (apply may raise,
modelled as none), invokes the callback — running its reentrant
operations, recording the invocation — and latches the aggregate result to
false when the callback returned the literal false. -/
def notifyLoop (event : String) (mode : ArgMode) :
    Nat → Nat → Listeners Cb → Bool → List InvRecord →
    Option (Listeners Cb × Bool × List InvRecord)
  | 0, _, st, ret, tr => some (st, ret, tr)
  | remaining + 1, i, st, ret, tr =>
      match ((getSeq st event).getD [])[i]? with
      | some (Slot.cb c) =>
          match mode.resolve with
          | none => none
          | some args =>
              notifyLoop event mode remaining (i + 1) (runOps st c.ops)
                (if c.retVal.isFalse then false else ret)
                (tr ++ [⟨c.cid, args, c.retVal⟩])
      | _ => notifyLoop event mode remaining (i + 1) st ret tr

/-- Listeners.prototype.notify (part_000 lines 151-169): when the sequence
of the event type is undefined nothing runs and true is returned,
otherwise the each loop runs over the sequence with the length captured at
entry.  The result carries the final registry state, the returned boolean,
and the instrumentation trace of the invocations; none models a TypeError
escaping the pass. -/
def Listeners.notify (l : Listeners Cb) (event : String) (data : Value) :
    Option (Listeners Cb × Bool × List InvRecord) :=
  match getSeq l event with
  | none => some (l, true, [])
  | some seq => notifyLoop event (notifyMode data) seq.length 0 l true []

/-- One action of a menu action group as the caller declares it: a label,
an optional icon, and a callback field.  The callback field holds an
arbitrary value because the source guards with a typeof check before
wrapping it. -/
structure MenuAction : Type where
  label : String
  icon : Option String
  callback : Value

/-- The group descriptor submitted to registerMenuActionGroup. -/
structure MenuActionGroup : Type where
  app : String
  label : String
  icon : Option String
  actions : List MenuAction

/-- What registerMenuActionGroup stores in the listener registry for one
action: either the adapter closure wrapping a function reference, or the
empty closure produced when the callback field is not a function. -/
inductive MenuCallback : Type where
  | adapter : Nat → MenuCallback
  | noop : MenuCallback
deriving Repr, DecidableEq

/-- createMenuAction (AH5Communicator.js lines 79-87): a function value is
wrapped in the adapter closure, anything else becomes the empty
closure. -/
def createMenuAction : Value → MenuCallback
  | .func f => MenuCallback.adapter f
  | _ => MenuCallback.noop

/-- Behaviour of the stored closure on a notification payload: the adapter
`function(data) \x7b func(data.id); \x7d` performs exactly one call of the
wrapped function reference with the single argument data.id; the empty
closure calls nothing.  The result is the call performed: the function
reference and its sole argument. -/
def MenuCallback.invoke : MenuCallback → Value → Option (Nat × Value)
  | .adapter f, data => some (f, data.getField "id")
  | .noop, _ => none

/-- The object value of one action as it sits inside the group object. -/
def menuActionToValue (a : MenuAction) : Value :=
  .obj ([("label", .str a.label)]
    ++ (match a.icon with
        | some i => [("icon", Value.str i)]
        | none => [])
    ++ [("callback", a.callback)])

/-- The object passed to the request primitive by registerMenuActionGroup
(AH5Communicator.js line 72): the group itself, unchanged — the per-action
callback fields are still present. -/
def registerMenuActionGroupPayload (g : MenuActionGroup) : Value :=
  .obj ([("app", .str g.app), ("label", .str g.label)]
    ++ (match g.icon with
        | some i => [("icon", Value.str i)]
        | none => [])
    ++ [("actions", .arr (g.actions.map menuActionToValue))])

/-- The registration loop of the reply handler (AH5Communicator.js lines
88-92): for each index, wrap the callback field of the action and add it
to the listener registry under the returned event-type name.  The pairs
are the zip of the returned names with the submitted actions, which the
caller only builds when the two lists have equal length. -/
def registerLoop :
    Listeners MenuCallback → List (String × MenuAction) →
    Listeners MenuCallback
  | reg, [] => reg
  | reg, (n, a) :: rest =>
      registerLoop (Listeners.add reg n (createMenuAction a.callback)).1 rest

/-- The reply handler of registerMenuActionGroup (AH5Communicator.js lines
72-95): when the length of the returned name list differs from the number
of submitted actions it returns early — no registration, and the
completion callback is never invoked (none); otherwise every action is
registered under its name and the completion callback is invoked with the
full name list (some typeNames). -/
def registerMenuActionGroupOnReply (reg : Listeners MenuCallback)
    (g : MenuActionGroup) (typeNames : List String) :
    Listeners MenuCallback × Option (List String) :=
  if typeNames.length ≠ g.actions.length then
    (reg, none)
  else
    (registerLoop reg (typeNames.zip g.actions), some typeNames)

mutual
/-- Whether a value contains a function reference anywhere inside it. -/
def Value.hasFunction : Value → Bool
  | .func _ => true
  | .obj fs => fieldsHaveFunction fs
  | .arr l => elemsHaveFunction l
  | _ => false

/-- Whether some field value of an object contains a function. -/
def fieldsHaveFunction : List (String × Value) → Bool
  | [] => false
  | (_, v) :: rest => v.hasFunction || fieldsHaveFunction rest

/-- Whether some element of an array contains a function. -/
def elemsHaveFunction : List Value → Bool
  | [] => false
  | v :: rest => v.hasFunction || elemsHaveFunction rest
end

mutual
/-- Modelled from the spec: the Request Correlator (AppAPI.request, which
is part of this repository but not under src/) serializes the payload onto
the transport, and per the spec callbacks are stripped before transmission
since they are not serializable across the boundary.  Modelled as JSON
serialization: a function-valued object field is dropped, a function in an
array position serializes as null, a bare function serializes as
undefined. -/
def stripFunctions : Value → Value
  | .obj fs => .obj (stripFields fs)
  | .arr l => .arr (stripElems l)
  | .func _ => .undefined
  | v => v

/-- Serialization of the fields of an object: function-valued fields are
dropped. -/
def stripFields : List (String × Value) → List (String × Value)
  | [] => []
  | (k, v) :: rest =>
      match v with
      | .func _ => stripFields rest
      | _ => (k, stripFunctions v) :: stripFields rest

/-- Serialization of the elements of an array: a function becomes null. -/
def stripElems : List Value → List Value
  | [] => []
  | v :: rest =>
      (match v with
       | .func _ => Value.null
       | _ => stripFunctions v) :: stripElems rest
end

/-- The slot stored at an index of the sequence of an event type, none
when the event type or the index is absent. -/
def slotAt (l : Listeners α) (event : String) (i : Nat) : Option (Slot α) :=
  (getSeq l event).bind (fun seq => seq[i]?)

/-- Invariant of a notification pass over one event type: the sequence of
that event type still exists, is at least as long as the snapshot taken
when the pass started, and every slot inside the snapshot range is either
unchanged or has been tombstoned (a reentrant add only appends, a
reentrant remove only overwrites a slot with a tombstone). -/
def prefixPreserved (e : String) (seq : List (Slot Cb))
    (st : Listeners Cb) : Prop :=
  ∃ cur, getSeq st e = some cur ∧ seq.length ≤ cur.length ∧
    ∀ j, j < seq.length → cur[j]? = seq[j]? ∨ cur[j]? = some Slot.tomb

/-- Concrete three-action group used by the menu-group witnesses. -/
def groupThree : MenuActionGroup :=
  ⟨"app", "menu", none,
    [⟨"a", none, Value.func 1⟩, ⟨"b", none, Value.func 2⟩,
     ⟨"c", none, Value.func 3⟩]⟩

/-- Reentrant callback used by the snapshot witness: when invoked it adds
a fresh callback under the same event type. -/
def cbReentrant : Cb :=
  Cb.mk 0 [CbOp.add "x" (Cb.mk 7 [] Value.undefined)] Value.undefined

example : (Listeners.add (α := Nat) ⟨[]⟩ "x" 5).2 = 0 := by decide
example : (Listeners.add (Listeners.add (α := Nat) ⟨[]⟩ "x" 5).1 "x" 6).2 = 1 := by
  decide
example :
    Listeners.remove (Listeners.add (α := Nat) ⟨[]⟩ "x" 5).1 "x" 0 =
      ⟨[("x", [Slot.tomb])]⟩ := by decide

-- Concrete evaluations of the embedding, matching hand-traced runs of the source.
example :
    Listeners.notify ⟨[("x", [Slot.cb (Cb.mk 0 [] Value.undefined)])]⟩ "x" Value.undefined =
      some (⟨[("x", [Slot.cb (Cb.mk 0 [] Value.undefined)])]⟩, true,
        [⟨0, [Value.undefined], Value.undefined⟩]) := rfl

-- veto aggregation: second callback returns false, third true again
example :
    (Listeners.notify ⟨[("x",
        [Slot.cb (Cb.mk 0 [] Value.undefined),
         Slot.cb (Cb.mk 1 [] (Value.bool false)),
         Slot.cb (Cb.mk 2 [] (Value.bool true))])]⟩ "x" Value.null).map
        (fun o => o.2.1) = some false := rfl

-- positional mode spreads data.data
example :
    (Listeners.notify ⟨[("x", [Slot.cb (Cb.mk 0 [] Value.undefined)])]⟩ "x"
        (Value.obj [("params", Value.bool true),
                    ("data", Value.arr [Value.num 1, Value.num 2])])).map
        (fun o => o.2.2) = some [⟨0, [Value.num 1, Value.num 2], Value.undefined⟩] := rfl

-- positional marker with absent data field: zero arguments
example :
    (Listeners.notify ⟨[("x", [Slot.cb (Cb.mk 0 [] Value.undefined)])]⟩ "x"
        (Value.obj [("params", Value.bool true)])).map
        (fun o => o.2.2) = some [⟨0, [], Value.undefined⟩] := rfl

-- reentrant add: the added callback is not invoked in this pass
example :
    Listeners.notify ⟨[("x", [Slot.cb (Cb.mk 0 [CbOp.add "x" (Cb.mk 7 [] Value.undefined)] Value.undefined)])]⟩
        "x" Value.undefined =
      some (⟨[("x", [Slot.cb (Cb.mk 0 [CbOp.add "x" (Cb.mk 7 [] Value.undefined)] Value.undefined),
                     Slot.cb (Cb.mk 7 [] Value.undefined)])]⟩, true,
        [⟨0, [Value.undefined], Value.undefined⟩]) := rfl

-- reentrant remove of a later sibling: sibling skipped
example :
    (Listeners.notify ⟨[("x",
        [Slot.cb (Cb.mk 0 [CbOp.rem "x" 1] Value.undefined),
         Slot.cb (Cb.mk 1 [] Value.undefined)])]⟩ "x" Value.undefined).map
        (fun o => o.2.2.map InvRecord.cbId) = some [0] := rfl

-- removeByCallback raises on a match, returns false on no match
example :
    Listeners.removeByCallback ⟨[("x", [Slot.cb (Cb.mk 3 [] Value.undefined)])]⟩ "x"
      (Cb.mk 3 [] Value.undefined) = none := rfl
example :
    Listeners.removeByCallback ⟨[("x", [Slot.cb (Cb.mk 3 [] Value.undefined)])]⟩ "x"
      (Cb.mk 4 [] Value.undefined) = some false := rfl

-- removeAll with empty string clears everything
example :
    Listeners.removeAll (α := Nat) ⟨[("x", [Slot.cb 1]), ("y", [Slot.cb 2])]⟩ (some "") =
      ⟨[]⟩ := rfl

-- group reply handler: mismatch aborts, match registers and completes
example :
    registerMenuActionGroupOnReply ⟨[]⟩
      ⟨"app", "lbl", none, [⟨"a", none, Value.func 1⟩, ⟨"b", none, Value.func 2⟩, ⟨"c", none, Value.func 3⟩]⟩
      ["t1", "t2"] = (⟨[]⟩, none) := rfl
example :
    registerMenuActionGroupOnReply ⟨[]⟩
      ⟨"app", "lbl", none, [⟨"a", none, Value.func 1⟩, ⟨"b", none, Value.str "no"⟩]⟩
      ["t1", "t2"] =
      (⟨[("t1", [Slot.cb (MenuCallback.adapter 1)]), ("t2", [Slot.cb MenuCallback.noop])]⟩,
       some ["t1", "t2"]) := rfl

-- payload passed to request still contains the function
example :
    Value.hasFunction (registerMenuActionGroupPayload
      ⟨"app", "lbl", none, [⟨"a", none, Value.func 1⟩]⟩) = true := rfl
example :
    Value.hasFunction (stripFunctions (registerMenuActionGroupPayload
      ⟨"app", "lbl", none, [⟨"a", none, Value.func 1⟩]⟩)) = false := rfl

theorem assocGet_assocSet_self (m : List (String × β)) (k : String) (v : β) :
    assocGet (assocSet m k v) k = some v := by
  induction m with
  | nil => simp [assocGet, assocSet]
  | cons hd tl ih =>
      obtain ⟨k', v'⟩ := hd
      by_cases h : k' = k <;> simp [assocGet, assocSet, h, ih]

theorem assocGet_assocSet_ne (m : List (String × β)) (k k' : String) (v : β)
    (h : k' ≠ k) : assocGet (assocSet m k v) k' = assocGet m k' := by
  induction m with
  | nil => simp [assocGet, assocSet, h, Ne.symm h]
  | cons hd tl ih =>
      obtain ⟨k₀, v₀⟩ := hd
      by_cases h₀ : k₀ = k
      · subst h₀
        simp [assocGet, assocSet, Ne.symm h, h]
      · by_cases h₁ : k₀ = k' <;> simp [assocGet, assocSet, h₀, h₁, h, ih]

theorem getSeq_setSeq_self (l : Listeners α) (e : String)
    (seq : List (Slot α)) : getSeq (setSeq l e seq) e = some seq :=
  assocGet_assocSet_self _ _ _

theorem getSeq_setSeq_ne (l : Listeners α) (e e' : String)
    (seq : List (Slot α)) (h : e' ≠ e) :
    getSeq (setSeq l e seq) e' = getSeq l e' :=
  assocGet_assocSet_ne _ _ _ _ h

theorem getSeq_add_self (l : Listeners α) (e : String) (c : α) :
    getSeq (l.add e c).1 e = some ((getSeq l e).getD [] ++ [Slot.cb c]) :=
  getSeq_setSeq_self _ _ _

theorem getSeq_add_ne (l : Listeners α) (e e' : String) (c : α)
    (h : e' ≠ e) : getSeq (l.add e c).1 e' = getSeq l e' :=
  getSeq_setSeq_ne _ _ _ _ h

theorem add_snd (l : Listeners α) (e : String) (c : α) :
    (l.add e c).2 = ((getSeq l e).getD []).length := rfl

theorem remove_of_none (l : Listeners α) (e : String) (i : Nat)
    (h : getSeq l e = none) : l.remove e i = l := by
  simp [Listeners.remove, h]

theorem remove_of_ge (l : Listeners α) (e : String) (i : Nat)
    (seq : List (Slot α)) (h : getSeq l e = some seq)
    (hge : seq.length ≤ i) : l.remove e i = l := by
  simp [Listeners.remove, h, Nat.not_lt.mpr hge]

theorem remove_of_lt (l : Listeners α) (e : String) (i : Nat)
    (seq : List (Slot α)) (h : getSeq l e = some seq)
    (hlt : i < seq.length) :
    l.remove e i = setSeq l e (seq.set i Slot.tomb) := by
  simp [Listeners.remove, h, hlt]

theorem getSeq_remove_ne (l : Listeners α) (e e' : String) (i : Nat)
    (h : e' ≠ e) : getSeq (l.remove e i) e' = getSeq l e' := by
  unfold Listeners.remove
  cases hseq : getSeq l e with
  | none => rfl
  | some seq =>
      by_cases hlt : i < seq.length <;>
        simp [hlt, getSeq_setSeq_ne _ _ _ _ h]

theorem getSeq_remove_length (l : Listeners α) (e e' : String) (i : Nat) :
    ((getSeq (l.remove e i) e').getD []).length =
      ((getSeq l e').getD []).length := by
  by_cases he : e' = e
  · subst he
    cases hseq : getSeq l e' with
    | none => rw [remove_of_none _ _ _ hseq, hseq]
    | some seq =>
        by_cases hlt : i < seq.length
        · rw [remove_of_lt _ _ _ _ hseq hlt, getSeq_setSeq_self]
          simp
        · rw [remove_of_ge _ _ _ _ hseq (Nat.le_of_not_lt hlt), hseq]
  · rw [getSeq_remove_ne _ _ _ _ he]

/-- C7: tombstoning never moves sibling slots and never changes the index
a later add returns: for every registry state, removing slot i of an event
type leaves every other slot (any other index of that event type, and
every slot of every other event type) exactly where it was, and the index
a subsequent add returns for any event type is the same as if the removal
had not happened. -/
theorem remove_index_stability (α : Type) :
    ∀ (l : Listeners α) (event : String) (i : Nat) (event' : String)
      (j : Nat) (c : α),
      ¬(event' = event ∧ j = i) →
      slotAt (l.remove event i) event' j = slotAt l event' j ∧
      ((l.remove event i).add event' c).2 = (l.add event' c).2 := by
  intro l event i event' j c h
  constructor
  · by_cases he : event' = event
    · subst he
      have hj : j ≠ i := fun hj => h ⟨rfl, hj⟩
      cases hseq : getSeq l event' with
      | none => rw [remove_of_none _ _ _ hseq]
      | some seq =>
          by_cases hlt : i < seq.length
          · rw [remove_of_lt _ _ _ _ hseq hlt]
            simp [slotAt, getSeq_setSeq_self, hseq,
              List.getElem?_set_ne (Ne.symm hj)]
          · rw [remove_of_ge _ _ _ _ hseq (Nat.le_of_not_lt hlt)]
    · simp [slotAt, getSeq_remove_ne _ _ _ _ he]
  · simp [add_snd, getSeq_remove_length]

theorem remove_index_stability_witness :
    ¬(("x" : String) = "x" ∧ (1 : Nat) = 0) ∧
    (slotAt ((Listeners.remove (α := Nat) ⟨[("x", [Slot.cb 5, Slot.cb 6])]⟩ "x" 0)) "x" 1 =
        slotAt (α := Nat) ⟨[("x", [Slot.cb 5, Slot.cb 6])]⟩ "x" 1 ∧
      ((Listeners.remove (α := Nat) ⟨[("x", [Slot.cb 5, Slot.cb 6])]⟩ "x" 0).add "x" 7).2 =
        (Listeners.add (α := Nat) ⟨[("x", [Slot.cb 5, Slot.cb 6])]⟩ "x" 7).2) :=
  ⟨by decide, remove_index_stability Nat ⟨[("x", [Slot.cb 5, Slot.cb 6])]⟩ "x" 0 "x" 1 7 (by decide)⟩

/-- C10: removeAll with any falsy event-type argument — an absent argument
or the empty string, the only falsy string — replaces the whole registry
with a fresh empty one, across all event types; only a non-empty event
name clears just that one sequence. -/
theorem removeAll_falsy_clears_everything (α : Type) :
    ∀ (l : Listeners α) (s : String), s ≠ "" →
      Listeners.removeAll l (some "") = (⟨[]⟩ : Listeners α) ∧
      Listeners.removeAll l none = (⟨[]⟩ : Listeners α) ∧
      Listeners.removeAll l (some s) = setSeq l s [] := by
  intro l s h
  refine ⟨rfl, rfl, ?_⟩
  simp [Listeners.removeAll, h]

theorem removeAll_falsy_clears_everything_witness :
    ("y" : String) ≠ "" ∧
    (Listeners.removeAll (α := Nat) ⟨[("x", [Slot.cb 1]), ("y", [Slot.tomb])]⟩ (some "") =
        (⟨[]⟩ : Listeners Nat) ∧
      Listeners.removeAll (α := Nat) ⟨[("x", [Slot.cb 1]), ("y", [Slot.tomb])]⟩ none =
        (⟨[]⟩ : Listeners Nat) ∧
      Listeners.removeAll (α := Nat) ⟨[("x", [Slot.cb 1]), ("y", [Slot.tomb])]⟩ (some "y") =
        setSeq ⟨[("x", [Slot.cb 1]), ("y", [Slot.tomb])]⟩ "y" []) :=
  ⟨by decide,
   removeAll_falsy_clears_everything Nat ⟨[("x", [Slot.cb 1]), ("y", [Slot.tomb])]⟩ "y" (by decide)⟩

/-- C1: when the length of the host reply list differs from the number of
submitted actions, the reply handler of registerMenuActionGroup returns
early: the listener registry is left exactly as it was (no listener is
registered) and the completion callback of the caller is never invoked. -/
theorem registerMenuActionGroup_mismatch_aborts
    (reg : Listeners MenuCallback) (g : MenuActionGroup)
    (typeNames : List String)
    (h : typeNames.length ≠ g.actions.length) :
    registerMenuActionGroupOnReply reg g typeNames = (reg, none) := by
  simp [registerMenuActionGroupOnReply, h]

theorem registerMenuActionGroup_mismatch_aborts_witness :
    (["t1", "t2"].length ≠ groupThree.actions.length) ∧
    registerMenuActionGroupOnReply ⟨[]⟩ groupThree ["t1", "t2"] =
      ((⟨[]⟩ : Listeners MenuCallback), none) :=
  ⟨by decide, registerMenuActionGroup_mismatch_aborts ⟨[]⟩ groupThree ["t1", "t2"] (by decide)⟩

/-- C8: evaluation of removeByCallback as written at the failing input and
at a no-match input.  With one listener stored under the event type and
that same callback passed in, the first identity match evaluates
`this.remove` with `this` bound by jQuery.each to the stored function, so
the call raises a TypeError (none) instead of tombstoning the slot and
returning true; with no matching callback the function returns false, and
in neither case is anything removed. -/
theorem removeByCallback_match_raises :
    Listeners.removeByCallback ⟨[("x", [Slot.cb (Cb.mk 3 [] Value.undefined)])]⟩
        "x" (Cb.mk 3 [] Value.undefined) = none ∧
    Listeners.removeByCallback ⟨[("x", [Slot.cb (Cb.mk 3 [] Value.undefined)])]⟩
        "x" (Cb.mk 4 [] Value.undefined) = some false :=
  ⟨rfl, rfl⟩

mutual
theorem stripFunctions_clean :
    ∀ v : Value, Value.hasFunction (stripFunctions v) = false
  | .undefined => rfl
  | .null => rfl
  | .bool _ => rfl
  | .num _ => rfl
  | .str _ => rfl
  | .func _ => rfl
  | .obj fs => stripFields_clean fs
  | .arr l => stripElems_clean l

theorem stripFields_clean :
    ∀ fs : List (String × Value),
      fieldsHaveFunction (stripFields fs) = false
  | [] => rfl
  | (k, v) :: rest => by
      have hv := stripFunctions_clean v
      have hr := stripFields_clean rest
      cases v <;> simp_all [stripFields, fieldsHaveFunction]

theorem stripElems_clean :
    ∀ l : List Value, elemsHaveFunction (stripElems l) = false
  | [] => rfl
  | v :: rest => by
      have hv := stripFunctions_clean v
      have hr := stripElems_clean rest
      cases v <;> simp_all [stripElems, elemsHaveFunction, Value.hasFunction]
end

theorem payload_actions_field (g : MenuActionGroup) :
    (registerMenuActionGroupPayload g).getField "actions" =
      Value.arr (g.actions.map menuActionToValue) := by
  obtain ⟨app, label, icon, actions⟩ := g
  cases icon <;> rfl

theorem menuAction_callback_field (a : MenuAction) :
    (menuActionToValue a).getField "callback" = a.callback := by
  obtain ⟨label, icon, cb⟩ := a
  cases icon <;> rfl

/-- C3 amended: the object registerMenuActionGroup passes to the request
primitive is the group itself, with every per-action callback field still
in place (the actions field of the payload is the submitted action list
verbatim, and each embedded action keeps its callback field unchanged);
the callbacks are stripped only by the serialization of the request
primitive onto the transport (modelled from the spec), whose output
contains no function anywhere. -/
theorem registerMenuActionGroup_payload_callbacks
    (g : MenuActionGroup) (a : MenuAction) :
    (registerMenuActionGroupPayload g).getField "actions" =
        Value.arr (g.actions.map menuActionToValue) ∧
    (menuActionToValue a).getField "callback" = a.callback ∧
    Value.hasFunction (stripFunctions (registerMenuActionGroupPayload g)) =
      false :=
  ⟨payload_actions_field g, menuAction_callback_field a,
   stripFunctions_clean _⟩

/-- C3 counterexample: for a one-action group whose action carries a
function-valued callback, the object passed to the request primitive does
contain a callback function, contradicting the claim that the object
passed to the request primitive contains none. -/
theorem registerMenuActionGroup_payload_contains_function :
    Value.hasFunction (registerMenuActionGroupPayload
      ⟨"app", "menu", none, [⟨"a", none, Value.func 1⟩]⟩) = true := rfl

theorem registerLoop_getSeq_not_mem (pairs : List (String × MenuAction)) :
    ∀ (reg : Listeners MenuCallback) (n : String),
      n ∉ pairs.map Prod.fst →
      getSeq (registerLoop reg pairs) n = getSeq reg n := by
  induction pairs with
  | nil => intro reg n _; rfl
  | cons hd tl ih =>
      intro reg n h
      obtain ⟨n₀, a₀⟩ := hd
      simp only [List.map_cons, List.mem_cons, not_or] at h
      rw [registerLoop, ih _ _ h.2, getSeq_add_ne _ _ _ _ h.1]

theorem registerLoop_getSeq_at (pairs : List (String × MenuAction)) :
    ∀ (reg : Listeners MenuCallback),
      (pairs.map Prod.fst).Nodup →
      ∀ i (hi : i < pairs.length),
        getSeq (registerLoop reg pairs) (pairs.get ⟨i, hi⟩).1 =
          some ((getSeq reg (pairs.get ⟨i, hi⟩).1).getD [] ++
            [Slot.cb (createMenuAction (pairs.get ⟨i, hi⟩).2.callback)]) := by
  induction pairs with
  | nil => intro reg _ i hi; exact absurd hi (by simp)
  | cons hd tl ih =>
      intro reg hnd i hi
      obtain ⟨n₀, a₀⟩ := hd
      rw [List.map_cons, List.nodup_cons] at hnd
      cases i with
      | zero =>
          show getSeq (registerLoop _ tl) n₀ = _
          rw [registerLoop_getSeq_not_mem _ _ _ hnd.1, getSeq_add_self]
          rfl
      | succ j =>
          have hj : j < tl.length := by simpa using hi
          have hne : (tl.get ⟨j, hj⟩).1 ≠ n₀ := by
            intro he
            exact hnd.1
              (he ▸ List.mem_map.mpr ⟨tl.get ⟨j, hj⟩, List.get_mem tl j hj, rfl⟩)
          show getSeq (registerLoop _ tl) (tl.get ⟨j, hj⟩).1 = _
          rw [ih _ hnd.2 j hj, getSeq_add_ne _ _ _ _ hne]
          rfl

/-- C2: when the host reply carries exactly one event-type name per
submitted action (and, per the spec contract, the allocated names are
distinct), the reply handler registers, for each index i, the wrapped i-th
callback under the i-th returned name — appended to whatever sequence that
name already had — and then invokes the completion callback of the caller
with the full name list; the wrapper stored for a function-valued callback
invokes exactly that function with the id field of the notification
payload as its sole argument. -/
theorem registerMenuActionGroup_success
    (reg : Listeners MenuCallback) (g : MenuActionGroup)
    (typeNames : List String)
    (hlen : typeNames.length = g.actions.length)
    (hnd : typeNames.Nodup) :
    (registerMenuActionGroupOnReply reg g typeNames).2 = some typeNames ∧
    (∀ i (hi : i < typeNames.length) (ha : i < g.actions.length),
      getSeq (registerMenuActionGroupOnReply reg g typeNames).1
          (typeNames.get ⟨i, hi⟩) =
        some ((getSeq reg (typeNames.get ⟨i, hi⟩)).getD [] ++
          [Slot.cb (createMenuAction (g.actions.get ⟨i, ha⟩).callback)])) ∧
    (∀ (f : Nat) (data : Value) (a : MenuAction),
      a.callback = Value.func f →
      MenuCallback.invoke (createMenuAction a.callback) data =
        some (f, data.getField "id")) := by
  have hfst : (typeNames.zip g.actions).map Prod.fst = typeNames :=
    List.map_fst_zip _ _ (le_of_eq hlen)
  have hznd : ((typeNames.zip g.actions).map Prod.fst).Nodup := by
    rw [hfst]; exact hnd
  refine ⟨?_, ?_, ?_⟩
  · simp [registerMenuActionGroupOnReply, hlen]
  · intro i hi ha
    have hiz : i < (typeNames.zip g.actions).length := by
      simp only [List.length_zip]; omega
    have h := registerLoop_getSeq_at (typeNames.zip g.actions) reg hznd i hiz
    have hpair : (typeNames.zip g.actions).get ⟨i, hiz⟩ =
        (typeNames.get ⟨i, hi⟩, g.actions.get ⟨i, ha⟩) := by
      simp [List.get_eq_getElem, List.getElem_zip]
    rw [hpair] at h
    simpa [registerMenuActionGroupOnReply, hlen] using h
  · intro f data a hcb
    rw [hcb]
    rfl

theorem registerMenuActionGroup_success_witness :
    (["t1", "t2", "t3"].length = groupThree.actions.length ∧
      ["t1", "t2", "t3"].Nodup) ∧
    (registerMenuActionGroupOnReply ⟨[]⟩ groupThree ["t1", "t2", "t3"]).2 =
      some ["t1", "t2", "t3"] ∧
    getSeq (registerMenuActionGroupOnReply ⟨[]⟩ groupThree
        ["t1", "t2", "t3"]).1 "t2" =
      some [Slot.cb (MenuCallback.adapter 2)] ∧
    MenuCallback.invoke (createMenuAction (Value.func 2))
        (Value.obj [("id", Value.str "el7")]) =
      some (2, Value.str "el7") := by
  have h := registerMenuActionGroup_success ⟨[]⟩ groupThree
    ["t1", "t2", "t3"] (by decide) (by decide)
  refine ⟨⟨by decide, by decide⟩, h.1, ?_, ?_⟩
  · exact h.2.1 1 (by decide) (by decide)
  · exact h.2.2 2 (Value.obj [("id", Value.str "el7")])
      ⟨"b", none, Value.func 2⟩ rfl

theorem isFalse_iff (v : Value) : v.isFalse = true ↔ v = Value.bool false := by
  cases v <;> simp [Value.isFalse]
  rename_i b
  cases b <;> simp [Value.isFalse]

theorem cb_mem_activeCbs {seq : List (Slot α)} {c : α}
    (h : Slot.cb c ∈ seq) : c ∈ activeCbs seq := by
  induction seq with
  | nil => cases h
  | cons s rest ih =>
      cases h with
      | head => simp [activeCbs]
      | tail _ hmem =>
          cases s <;> simp [activeCbs, ih hmem]

theorem notifyLoop_false_iff (e : String) (m : ArgMode) :
    ∀ (rem i : Nat) (st : Listeners Cb) (ret : Bool) (tr : List InvRecord)
      (st' : Listeners Cb) (res : Bool) (tr' : List InvRecord),
      notifyLoop e m rem i st ret tr = some (st', res, tr') →
      ∃ new, tr' = tr ++ new ∧
        (res = false ↔ (ret = false ∨ ∃ r ∈ new, InvRecord.ret r = Value.bool false)) := by
  intro rem
  induction rem with
  | zero =>
      intro i st ret tr st' res tr' h
      simp only [notifyLoop, Option.some.injEq, Prod.mk.injEq] at h
      obtain ⟨-, hret, htr⟩ := h
      exact ⟨[], by simp [htr], by simp [hret]⟩
  | succ rem ih =>
      intro i st ret tr st' res tr' h
      rw [notifyLoop] at h
      split at h
      · split at h
        · exact absurd h (by simp)
        · rename_i osl cbv hslot ores argsv hres
          obtain ⟨new, htr, hiff⟩ := ih _ _ _ _ _ _ _ h
          refine ⟨⟨cbv.cid, argsv, cbv.retVal⟩ :: new, by simp [htr], ?_⟩
          by_cases hcf : cbv.retVal.isFalse = true
          · rw [if_pos hcf] at hiff
            have hbf : cbv.retVal = Value.bool false := (isFalse_iff _).mp hcf
            simp [hiff, hbf]
          · rw [if_neg hcf] at hiff
            have hbf : ¬ cbv.retVal = Value.bool false := fun hv =>
              hcf (by simp [hv, Value.isFalse])
            simp [hiff, hbf]
      · obtain ⟨new, htr, hiff⟩ := ih _ _ _ _ _ _ _ h
        exact ⟨new, htr, hiff⟩

theorem notifyLoop_all_tomb (e : String) (m : ArgMode) :
    ∀ (rem i : Nat) (st : Listeners Cb) (ret : Bool) (tr : List InvRecord),
      activeCbs ((getSeq st e).getD []) = [] →
      notifyLoop e m rem i st ret tr = some (st, ret, tr) := by
  intro rem
  induction rem with
  | zero => intro i st ret tr _; rfl
  | succ rem ih =>
      intro i st ret tr hact
      rw [notifyLoop]
      split
      · rename_i osl cbv hslot
        exact absurd (cb_mem_activeCbs (List.getElem?_mem hslot))
          (by simp [hact])
      · exact ih _ _ _ _ hact

/-- C4: for every event type and data value, a notification pass that
returns normally yields false exactly when at least one invoked (active,
non-tombstoned) callback returned the literal false — a later
true-returning callback never overrides an earlier veto — and a pass over
an event type with zero active callbacks leaves the registry untouched,
invokes nothing and returns true. -/
theorem notify_false_iff_veto (l : Listeners Cb) (event : String)
    (data : Value) (st : Listeners Cb) (res : Bool) (tr : List InvRecord)
    (h : l.notify event data = some (st, res, tr)) :
    (res = false ↔ ∃ r ∈ tr, InvRecord.ret r = Value.bool false) ∧
    (activeCbs ((getSeq l event).getD []) = [] →
      st = l ∧ res = true ∧ tr = []) := by
  constructor
  · unfold Listeners.notify at h
    cases hseq : getSeq l event with
    | none =>
        rw [hseq] at h
        simp only [Option.some.injEq, Prod.mk.injEq] at h
        obtain ⟨-, hret, htr⟩ := h
        simp [← hret, ← htr]
    | some seq =>
        rw [hseq] at h
        obtain ⟨new, htr, hiff⟩ := notifyLoop_false_iff _ _ _ _ _ _ _ _ _ _ h
        simp only [List.nil_append] at htr
        subst htr
        simpa using hiff
  · intro hact
    unfold Listeners.notify at h
    cases hseq : getSeq l event with
    | none =>
        rw [hseq] at h
        simp only [Option.some.injEq, Prod.mk.injEq] at h
        exact ⟨h.1.symm, h.2.1.symm, h.2.2.symm⟩
    | some seq =>
        rw [hseq] at h
        have h2 : notifyLoop event (notifyMode data) seq.length 0 l true [] =
            some (st, res, tr) := h
        rw [notifyLoop_all_tomb event (notifyMode data) seq.length 0 l true []
          hact] at h2
        simp only [Option.some.injEq, Prod.mk.injEq] at h2
        exact ⟨h2.1.symm, h2.2.1.symm, h2.2.2.symm⟩

theorem notify_false_iff_veto_witness :
    Listeners.notify ⟨[("x", [Slot.cb (Cb.mk 0 [] (Value.bool false)),
        Slot.cb (Cb.mk 1 [] (Value.bool true))])]⟩ "x" Value.null =
      some (⟨[("x", [Slot.cb (Cb.mk 0 [] (Value.bool false)),
        Slot.cb (Cb.mk 1 [] (Value.bool true))])]⟩, false,
        [⟨0, [Value.null], Value.bool false⟩,
         ⟨1, [Value.null], Value.bool true⟩]) ∧
    ((false = false ↔
        ∃ r ∈ [(⟨0, [Value.null], Value.bool false⟩ : InvRecord),
          ⟨1, [Value.null], Value.bool true⟩],
          InvRecord.ret r = Value.bool false) ∧
      (activeCbs ((getSeq (⟨[("x", [Slot.cb (Cb.mk 0 [] (Value.bool false)),
          Slot.cb (Cb.mk 1 [] (Value.bool true))])]⟩ : Listeners Cb) "x").getD []) = [] →
        (⟨[("x", [Slot.cb (Cb.mk 0 [] (Value.bool false)),
          Slot.cb (Cb.mk 1 [] (Value.bool true))])]⟩ : Listeners Cb) =
          ⟨[("x", [Slot.cb (Cb.mk 0 [] (Value.bool false)),
            Slot.cb (Cb.mk 1 [] (Value.bool true))])]⟩ ∧
        false = true ∧
        ([(⟨0, [Value.null], Value.bool false⟩ : InvRecord),
          ⟨1, [Value.null], Value.bool true⟩] : List InvRecord) = [])) :=
  ⟨rfl, notify_false_iff_veto _ "x" Value.null _ _ _ rfl⟩


theorem notifyLoop_cb (e : String) (m : ArgMode) (rem i : Nat)
    (st : Listeners Cb) (ret : Bool) (tr : List InvRecord) (c : Cb)
    (args : List Value)
    (hslot : ((getSeq st e).getD [])[i]? = some (Slot.cb c))
    (hres : m.resolve = some args) :
    notifyLoop e m (rem + 1) i st ret tr =
      notifyLoop e m rem (i + 1) (runOps st c.ops)
        (if c.retVal.isFalse then false else ret)
        (tr ++ [⟨c.cid, args, c.retVal⟩]) := by
  rw [notifyLoop, hslot, hres]

theorem notifyLoop_tomb (e : String) (m : ArgMode) (rem i : Nat)
    (st : Listeners Cb) (ret : Bool) (tr : List InvRecord)
    (hslot : ((getSeq st e).getD [])[i]? = some Slot.tomb) :
    notifyLoop e m (rem + 1) i st ret tr =
      notifyLoop e m rem (i + 1) st ret tr := by
  rw [notifyLoop, hslot]

theorem notifyLoop_oob (e : String) (m : ArgMode) (rem i : Nat)
    (st : Listeners Cb) (ret : Bool) (tr : List InvRecord)
    (hslot : ((getSeq st e).getD [])[i]? = none) :
    notifyLoop e m (rem + 1) i st ret tr =
      notifyLoop e m rem (i + 1) st ret tr := by
  rw [notifyLoop, hslot]

theorem notifyLoop_pure (e : String) (m : ArgMode) (seq : List (Slot Cb))
    (args : List Value) (hargs : m.resolve = some args) :
    ∀ (rem i : Nat) (st : Listeners Cb) (ret : Bool) (tr : List InvRecord),
      getSeq st e = some seq →
      (∀ c ∈ activeCbs seq, c.ops = []) →
      rem + i = seq.length →
      notifyLoop e m rem i st ret tr =
        some (st,
          ret && !((activeCbs (seq.drop i)).any (fun c => c.retVal.isFalse)),
          tr ++ (activeCbs (seq.drop i)).map
            (fun c => ⟨c.cid, args, c.retVal⟩)) := by
  intro rem
  induction rem with
  | zero =>
      intro i st ret tr hseq hpure hlen
      have hdrop : seq.drop i = [] := List.drop_eq_nil_of_le (by omega)
      rw [notifyLoop]
      simp [hdrop, activeCbs]
  | succ rem ih =>
      intro i st ret tr hseq hpure hlen
      have hi : i < seq.length := by omega
      have hget : seq[i]? = some (seq.get ⟨i, hi⟩) := by
        rw [List.getElem?_eq_getElem hi, List.get_eq_getElem]
      have hdrop : seq.drop i = seq.get ⟨i, hi⟩ :: seq.drop (i + 1) := by
        rw [List.drop_eq_getElem_cons hi, List.get_eq_getElem]
      have hslot : ((getSeq st e).getD [])[i]? = some (seq.get ⟨i, hi⟩) := by
        rw [hseq]
        exact hget
      cases hs : seq.get ⟨i, hi⟩ with
      | tomb =>
          rw [hs] at hslot hdrop
          rw [notifyLoop_tomb e m rem i st ret tr hslot,
            ih (i + 1) st ret tr hseq hpure (by omega)]
          simp [hdrop, activeCbs]
      | cb c =>
          rw [hs] at hslot hdrop
          have hmem : c ∈ activeCbs seq :=
            cb_mem_activeCbs (List.getElem?_mem (hs ▸ hget))
          have hops : c.ops = [] := hpure c hmem
          rw [notifyLoop_cb e m rem i st ret tr c args hslot hargs, hops,
            show runOps st [] = st from rfl,
            ih (i + 1) st _ _ hseq hpure (by omega)]
          rw [hdrop]
          simp only [activeCbs, List.any_cons, List.map_cons,
            List.append_assoc, List.singleton_append]
          by_cases hcf : c.retVal.isFalse = true
          · simp [hcf]
          · simp [hcf, Bool.and_assoc]

/-- C5: for any registry state reached by add and remove operations (any
sequence of slots, with the callbacks themselves not mutating the registry
when invoked) and any data whose argument resolution does not raise, a
notification pass invokes exactly the active (non-tombstoned) callbacks,
each exactly once, in slot (original registration) order, skipping
tombstones, with no short-circuiting — the trace still lists every later
active callback even when an earlier one returned false — and leaves the
registry unchanged. -/
theorem notify_invokes_active_in_order (l : Listeners Cb) (event : String)
    (data : Value) (seq : List (Slot Cb)) (args : List Value)
    (hseq : getSeq l event = some seq)
    (hpure : ∀ c ∈ activeCbs seq, c.ops = [])
    (hargs : (notifyMode data).resolve = some args) :
    l.notify event data =
      some (l, !((activeCbs seq).any (fun c => c.retVal.isFalse)),
        (activeCbs seq).map (fun c => ⟨c.cid, args, c.retVal⟩)) := by
  unfold Listeners.notify
  rw [hseq]
  have h := notifyLoop_pure event (notifyMode data) seq args hargs
    seq.length 0 l true [] hseq hpure (by omega)
  simpa using h

theorem notify_invokes_active_in_order_witness :
    getSeq (⟨[("x", [Slot.cb (Cb.mk 0 [] Value.undefined), Slot.tomb,
        Slot.cb (Cb.mk 1 [] (Value.bool false)),
        Slot.cb (Cb.mk 2 [] (Value.bool true))])]⟩ : Listeners Cb) "x" =
      some [Slot.cb (Cb.mk 0 [] Value.undefined), Slot.tomb,
        Slot.cb (Cb.mk 1 [] (Value.bool false)),
        Slot.cb (Cb.mk 2 [] (Value.bool true))] ∧
    (notifyMode Value.null).resolve = some [Value.null] ∧
    Listeners.notify ⟨[("x", [Slot.cb (Cb.mk 0 [] Value.undefined), Slot.tomb,
        Slot.cb (Cb.mk 1 [] (Value.bool false)),
        Slot.cb (Cb.mk 2 [] (Value.bool true))])]⟩ "x" Value.null =
      some (⟨[("x", [Slot.cb (Cb.mk 0 [] Value.undefined), Slot.tomb,
          Slot.cb (Cb.mk 1 [] (Value.bool false)),
          Slot.cb (Cb.mk 2 [] (Value.bool true))])]⟩,
        !((activeCbs [Slot.cb (Cb.mk 0 [] Value.undefined), Slot.tomb,
            Slot.cb (Cb.mk 1 [] (Value.bool false)),
            Slot.cb (Cb.mk 2 [] (Value.bool true))]).any
          (fun c => c.retVal.isFalse)),
        (activeCbs [Slot.cb (Cb.mk 0 [] Value.undefined), Slot.tomb,
            Slot.cb (Cb.mk 1 [] (Value.bool false)),
            Slot.cb (Cb.mk 2 [] (Value.bool true))]).map
          (fun c => ⟨c.cid, [Value.null], c.retVal⟩)) :=
  ⟨rfl, rfl,
   notify_invokes_active_in_order _ "x" Value.null _ [Value.null] rfl
     (by
       intro c hc
       simp only [activeCbs, List.mem_cons, List.not_mem_nil, or_false] at hc
       rcases hc with h | h | h <;> subst h <;> rfl)
     rfl⟩

theorem notifyLoop_args_mode (e : String) (m : ArgMode) :
    ∀ (rem i : Nat) (st : Listeners Cb) (ret : Bool) (tr : List InvRecord)
      (st' : Listeners Cb) (res : Bool) (tr' : List InvRecord),
      notifyLoop e m rem i st ret tr = some (st', res, tr') →
      ∀ r ∈ tr', r ∈ tr ∨ m.resolve = some (InvRecord.args r) := by
  intro rem
  induction rem with
  | zero =>
      intro i st ret tr st' res tr' h r hr
      simp only [notifyLoop, Option.some.injEq, Prod.mk.injEq] at h
      exact Or.inl (h.2.2 ▸ hr)
  | succ rem ih =>
      intro i st ret tr st' res tr' h r hr
      rw [notifyLoop] at h
      split at h
      · split at h
        · exact absurd h (by simp)
        · rename_i osl cbv hslot ores argsv hres
          rcases ih _ _ _ _ _ _ _ h r hr with hmem | hr2
          · rcases List.mem_append.mp hmem with hmem2 | hmem2
            · exact Or.inl hmem2
            · simp only [List.mem_singleton] at hmem2
              subst hmem2
              exact Or.inr hres
          · exact Or.inr hr2
      · exact ih _ _ _ _ _ _ _ h r hr

/-- C6 amended: notify selects the invocation mode solely from the
positional marker — when data is truthy and its params field is strictly
equal to the literal true, every invoked callback is applied to the
argument list extracted from the data field of data (the elements of an
array, and no arguments at all when that field is absent or null);
otherwise every invoked callback receives data itself as its single
argument. -/
theorem notify_mode_selection (l : Listeners Cb) (event : String)
    (data : Value) (st : Listeners Cb) (res : Bool) (tr : List InvRecord)
    (h : l.notify event data = some (st, res, tr)) :
    ∀ r ∈ tr,
      ((data.truthy && (data.getField "params").truthy
          && (data.getField "params").isTrue) = true →
        argList (data.getField "data") = some (InvRecord.args r)) ∧
      ((data.truthy && (data.getField "params").truthy
          && (data.getField "params").isTrue) = false →
        InvRecord.args r = [data]) := by
  intro r hr
  unfold Listeners.notify at h
  cases hseq : getSeq l event with
  | none =>
      rw [hseq] at h
      simp only [Option.some.injEq, Prod.mk.injEq] at h
      rw [← h.2.2] at hr
      exact absurd hr (List.not_mem_nil r)
  | some seq =>
      rw [hseq] at h
      have h2 : notifyLoop event (notifyMode data) seq.length 0 l true [] =
          some (st, res, tr) := h
      rcases notifyLoop_args_mode event (notifyMode data) seq.length 0 l
          true [] st res tr h2 r hr with hmem | hres
      · exact absurd hmem (List.not_mem_nil r)
      · constructor
        · intro hcond
          rw [notifyMode, if_pos hcond] at hres
          exact hres
        · intro hcond
          rw [notifyMode, if_neg (by rw [hcond]; exact Bool.false_ne_true)]
            at hres
          simpa [ArgMode.resolve] using hres.symm

theorem notify_mode_selection_witness :
    Listeners.notify ⟨[("x", [Slot.cb (Cb.mk 0 [] Value.undefined)])]⟩ "x"
        Value.null =
      some (⟨[("x", [Slot.cb (Cb.mk 0 [] Value.undefined)])]⟩, true,
        [⟨0, [Value.null], Value.undefined⟩]) ∧
    (∀ r ∈ [(⟨0, [Value.null], Value.undefined⟩ : InvRecord)],
      ((Value.null.truthy && (Value.null.getField "params").truthy
          && (Value.null.getField "params").isTrue) = true →
        argList (Value.null.getField "data") = some (InvRecord.args r)) ∧
      ((Value.null.truthy && (Value.null.getField "params").truthy
          && (Value.null.getField "params").isTrue) = false →
        InvRecord.args r = [Value.null])) :=
  ⟨rfl, notify_mode_selection ⟨[("x", [Slot.cb (Cb.mk 0 [] Value.undefined)])]⟩
    "x" Value.null ⟨[("x", [Slot.cb (Cb.mk 0 [] Value.undefined)])]⟩ true
    [⟨0, [Value.null], Value.undefined⟩] rfl⟩

/-- C6 counterexample: at data carrying the positional marker but no
argument list at all (no data field), the code still selects the
positional mode and invokes the callback with zero arguments, not with
data itself as its single argument as the claim requires for
data that does not carry a marker together with an argument list: the pass
below records the argument list [] for its only invocation, and [] is not
the one-element list holding the data value. -/
theorem notify_marker_without_list_counterexample :
    (Value.obj [("params", Value.bool true)]).getField "data" =
      Value.undefined ∧
    Listeners.notify ⟨[("x", [Slot.cb (Cb.mk 0 [] Value.undefined)])]⟩ "x"
        (Value.obj [("params", Value.bool true)]) =
      some (⟨[("x", [Slot.cb (Cb.mk 0 [] Value.undefined)])]⟩, true,
        [⟨0, [], Value.undefined⟩]) ∧
    ([] : List Value) ≠ [Value.obj [("params", Value.bool true)]] :=
  ⟨rfl, rfl, by simp⟩

theorem prefixPreserved_add (e : String) (seq : List (Slot Cb))
    (st : Listeners Cb) (e2 : String) (c : Cb)
    (h : prefixPreserved e seq st) :
    prefixPreserved e seq (Listeners.add st e2 c).1 := by
  obtain ⟨cur, hcur, hlen, hpre⟩ := h
  by_cases he : e2 = e
  · subst he
    refine ⟨cur ++ [Slot.cb c], ?_, ?_, ?_⟩
    · rw [getSeq_add_self, hcur]
      rfl
    · simpa using Nat.le_succ_of_le hlen
    · intro j hj
      rw [List.getElem?_append_left (by omega)]
      exact hpre j hj
  · exact ⟨cur, by rw [getSeq_add_ne _ _ _ _ (fun hh => he hh.symm)]; exact hcur,
      hlen, hpre⟩

theorem prefixPreserved_remove (e : String) (seq : List (Slot Cb))
    (st : Listeners Cb) (e2 : String) (k : Nat)
    (h : prefixPreserved e seq st) :
    prefixPreserved e seq (Listeners.remove st e2 k) := by
  obtain ⟨cur, hcur, hlen, hpre⟩ := h
  by_cases he : e2 = e
  · subst he
    cases hseq2 : getSeq st e2 with
    | none => rw [remove_of_none _ _ _ hseq2]; exact ⟨cur, hcur, hlen, hpre⟩
    | some s2 =>
        have hs2 : s2 = cur := by
          rw [hseq2] at hcur
          exact (Option.some.injEq _ _ ▸ hcur : s2 = cur)
        subst hs2
        by_cases hk : k < s2.length
        · rw [remove_of_lt _ _ _ _ hseq2 hk]
          refine ⟨s2.set k Slot.tomb, getSeq_setSeq_self _ _ _, by simpa using hlen, ?_⟩
          intro j hj
          by_cases hjk : j = k
          · subst hjk
            exact Or.inr (by rw [List.getElem?_set_self hk])
          · rw [List.getElem?_set_ne (fun hh => hjk hh.symm)]
            exact hpre j hj
        · rw [remove_of_ge _ _ _ _ hseq2 (Nat.le_of_not_lt hk)]
          exact ⟨s2, hseq2, hlen, hpre⟩
  · refine ⟨cur, ?_, hlen, hpre⟩
    rw [getSeq_remove_ne _ _ _ _ (fun hh => he hh.symm)]
    exact hcur

theorem prefixPreserved_runOps (e : String) (seq : List (Slot Cb)) :
    ∀ (ops : List CbOp) (st : Listeners Cb),
      prefixPreserved e seq st → prefixPreserved e seq (runOps st ops) := by
  intro ops
  induction ops with
  | nil => intro st h; exact h
  | cons op rest ih =>
      intro st h
      cases op with
      | add e2 c => exact ih _ (prefixPreserved_add e seq st e2 c h)
      | rem e2 k => exact ih _ (prefixPreserved_remove e seq st e2 k h)

theorem notifyLoop_snapshot (e : String) (m : ArgMode)
    (seq : List (Slot Cb)) :
    ∀ (rem i : Nat) (st : Listeners Cb) (ret : Bool) (tr : List InvRecord)
      (st' : Listeners Cb) (res : Bool) (tr' : List InvRecord),
      rem + i = seq.length →
      prefixPreserved e seq st →
      notifyLoop e m rem i st ret tr = some (st', res, tr') →
      ∀ r ∈ tr', r ∈ tr ∨
        ∃ c, Slot.cb c ∈ seq ∧ InvRecord.cbId r = Cb.cid c := by
  intro rem
  induction rem with
  | zero =>
      intro i st ret tr st' res tr' hlen hpp h r hr
      simp only [notifyLoop, Option.some.injEq, Prod.mk.injEq] at h
      exact Or.inl (h.2.2 ▸ hr)
  | succ rem ih =>
      intro i st ret tr st' res tr' hlen hpp h r hr
      have hi : i < seq.length := by omega
      obtain ⟨cur, hcur, hclen, hpre⟩ := hpp
      rw [notifyLoop] at h
      split at h
      · split at h
        · exact absurd h (by simp)
        · rename_i osl cbv hslot ores argsv hres
          have hcbv : seq[i]? = some (Slot.cb cbv) := by
            rw [hcur] at hslot
            simp only [Option.getD_some] at hslot
            rcases hpre i hi with hsame | htomb
            · rw [← hsame]
              exact hslot
            · rw [hslot] at htomb
              exact absurd (Option.some.inj htomb) (by simp)
          have hmem : Slot.cb cbv ∈ seq := List.getElem?_mem hcbv
          have hpp2 : prefixPreserved e seq (runOps st cbv.ops) :=
            prefixPreserved_runOps e seq cbv.ops st ⟨cur, hcur, hclen, hpre⟩
          rcases ih _ _ _ _ _ _ _ (by omega) hpp2 h r hr with hmem2 | hex
          · rcases List.mem_append.mp hmem2 with hmem3 | hmem3
            · exact Or.inl hmem3
            · simp only [List.mem_singleton] at hmem3
              subst hmem3
              exact Or.inr ⟨cbv, hmem, rfl⟩
          · exact Or.inr hex
      · exact ih _ _ _ _ _ _ _ (by omega) ⟨cur, hcur, hclen, hpre⟩ h r hr

theorem notifyLoop_total (e : String) (m : ArgMode) (args : List Value)
    (hargs : m.resolve = some args) :
    ∀ (rem i : Nat) (st : Listeners Cb) (ret : Bool) (tr : List InvRecord),
      ∃ out, notifyLoop e m rem i st ret tr = some out := by
  intro rem
  induction rem with
  | zero => intro i st ret tr; exact ⟨(st, ret, tr), rfl⟩
  | succ rem ih =>
      intro i st ret tr
      cases hslot : ((getSeq st e).getD [])[i]? with
      | none => rw [notifyLoop_oob e m rem i st ret tr hslot]; exact ih _ _ _ _
      | some s =>
          cases s with
          | tomb =>
              rw [notifyLoop_tomb e m rem i st ret tr hslot]
              exact ih _ _ _ _
          | cb c =>
              rw [notifyLoop_cb e m rem i st ret tr c args hslot hargs]
              exact ih _ _ _ _

/-- C9: a notification pass has snapshot-at-start semantics — every
callback it invokes already occupied a slot of the event type when the
pass began, so a callback added reentrantly for the same event type from
inside a callback is never invoked during the in-progress pass — and
reentrant adds and removes never corrupt the iteration: whenever the
argument resolution does not raise, the pass still terminates normally
with a result. -/
theorem notify_snapshot_semantics (l : Listeners Cb) (event : String)
    (data : Value) (seq : List (Slot Cb))
    (hseq : getSeq l event = some seq) :
    (∀ st res tr, l.notify event data = some (st, res, tr) →
      ∀ r ∈ tr, ∃ c, Slot.cb c ∈ seq ∧ InvRecord.cbId r = Cb.cid c) ∧
    (∀ args, (notifyMode data).resolve = some args →
      ∃ out, l.notify event data = some out) := by
  constructor
  · intro st res tr h r hr
    unfold Listeners.notify at h
    rw [hseq] at h
    have h2 : notifyLoop event (notifyMode data) seq.length 0 l true [] =
        some (st, res, tr) := h
    rcases notifyLoop_snapshot event (notifyMode data) seq seq.length 0 l
        true [] st res tr (by omega)
        ⟨seq, hseq, Nat.le_refl _, fun j _ => Or.inl rfl⟩ h2 r hr with
      hmem | hex
    · exact absurd hmem (List.not_mem_nil r)
    · exact hex
  · intro args hargs
    unfold Listeners.notify
    rw [hseq]
    exact notifyLoop_total event (notifyMode data) args hargs seq.length 0 l
      true []

theorem notify_snapshot_semantics_witness :
    getSeq (⟨[("x", [Slot.cb cbReentrant])]⟩ : Listeners Cb) "x" =
      some [Slot.cb cbReentrant] ∧
    ((∀ st res tr,
        Listeners.notify ⟨[("x", [Slot.cb cbReentrant])]⟩ "x" Value.undefined =
          some (st, res, tr) →
        ∀ r ∈ tr, ∃ c, Slot.cb c ∈ [Slot.cb cbReentrant] ∧
          InvRecord.cbId r = Cb.cid c) ∧
      (∀ args, (notifyMode Value.undefined).resolve = some args →
        ∃ out, Listeners.notify ⟨[("x", [Slot.cb cbReentrant])]⟩ "x"
          Value.undefined = some out)) :=
  ⟨rfl, notify_snapshot_semantics ⟨[("x", [Slot.cb cbReentrant])]⟩ "x"
    Value.undefined [Slot.cb cbReentrant] rfl⟩
